import Mathlib

/-!
Verification of the `goose` CLI session-rendering core against its
specification.  The embedding covers:

* `crates/goose-cli/src/session/streaming_buffer.rs` — `MarkdownBuffer`
  (`push` / `flush`), modelled on `List Char` (Rust `String` holds UTF-8
  text; the split offsets in `push` always land on the byte boundary right
  after a `"\n\n"` occurrence, which is also a character boundary, so a
  character-level model is content-faithful).
* `crates/goose-cli/src/session/output.rs` — `handle_spacing` (spacing
  state machine over `ContentType`), `print_value` /
  `print_value_with_prefix` / `print_params` (structured value printer),
  and `shorten_path` (path shortener).

External effects are made explicit: the terminal width query
(`Term::stdout().size_checked()`) becomes an `Option Nat` parameter, the
`HOME` environment variable an `Option (List Char)` parameter, and printed
output is returned as data instead of written to stdout.  ANSI styling
(`console::style`) only wraps text in color escape codes and is dropped;
`console::measure_text_width` measures the display width of the text with
escape codes stripped, modelled here as the character count (the prefixes
measured by the code are ASCII key names and indentation).
-/

/-! Definitions: the shallow embedding of the rendering core. -/

/-- Whether positions `p, p+1` of `l` hold the two-character sequence
`"\n\n"` (a double newline). -/
def isNNAt (l : List Char) (p : Nat) : Bool :=
  (l[p]? == some '\n') && (l[p + 1]? == some '\n')

/-- Whether `l` contains a double newline anywhere
(Rust `self.buffer.rfind("\n\n").is_some()`). -/
def containsNN : List Char → Bool
  | a :: b :: t => (a = '\n' && b = '\n') || containsNN (b :: t)
  | _ => false

/-- The index of the LAST occurrence of `"\n\n"` in `l`, if any: embeds
Rust `str::rfind("\n\n")` (byte offsets coincide with character offsets
up to the occurrence because the needle is ASCII and offsets are defined
by the occurrence itself). -/
def rfindNN : List Char → Option Nat
  | a :: b :: t =>
    match rfindNN (b :: t) with
    | some p => some (p + 1)
    | none => if a = '\n' ∧ b = '\n' then some 0 else none
  | _ => none

/-- Embeds `MarkdownBuffer::push`: append the chunk, split at the last
double newline if present.  Returns `(returned value, new buffer)`. -/
def pushB (buf chunk : List Char) : Option (List Char) × List Char :=
  let b := buf ++ chunk
  match rfindNN b with
  | some p => (some (b.take (p + 2)), b.drop (p + 2))
  | none => (none, b)

/-- Embeds `MarkdownBuffer::flush`: `std::mem::take(&mut self.buffer)`.
Returns `(returned value, new buffer)`. -/
def flushB (buf : List Char) : List Char × List Char :=
  (buf, [])

/-- Operations driven against a buffer, for the conservation invariant. -/
inductive BufOp where
  | push (frag : List Char)
  | flush
deriving Repr

/-- One operation step: returns the texts emitted by the call (0 or 1)
and the new buffer. -/
def stepB (buf : List Char) : BufOp → List (List Char) × List Char
  | BufOp.push frag =>
    match pushB buf frag with
    | (some r, b') => ([r], b')
    | (none, b') => ([], b')
  | BufOp.flush => ([(flushB buf).1], (flushB buf).2)

/-- Run a sequence of operations, collecting every emitted text in call
order together with the final buffer. -/
def runB (buf : List Char) : List BufOp → List (List Char) × List Char
  | [] => ([], buf)
  | op :: ops =>
    let s := stepB buf op
    let r := runB s.2 ops
    (s.1 ++ r.1, r.2)

/-- The fragments pushed by a sequence of operations, in order. -/
def pushedOf : List BufOp → List (List Char)
  | [] => []
  | BufOp.push f :: ops => f :: pushedOf ops
  | BufOp.flush :: ops => pushedOf ops

/-- Embeds `ContentType` from `output.rs` (the kind of the last rendered
block; `Empty` is the `#[default]` initial state). -/
inductive ContentType where
  | Empty
  | Text
  | ToolCall
  | ToolResponse
  | System
  | Prompt
  | Header
  | Error
deriving DecidableEq, Repr

/-- Embeds `SessionOutput::handle_spacing`: given the stored
`last_rendered` state and the next block kind, returns whether one blank
separator line is printed (`println!()`) and the new stored state.  The
match arms are in source order (first match wins). -/
def handle_spacing (last next : ContentType) : Bool × ContentType :=
  (match last, next with
    | ContentType.Empty, _ => false
    | ContentType.Header, _ => true
    | _, ContentType.Header => true
    | ContentType.ToolCall, ContentType.ToolResponse => false
    | _, _ => true,
   next)

/-- Embeds `serde_json::Value`.  Objects are ordered key/value pair
lists (`rmcp::model::JsonObject` preserves insertion order), keys and
strings are character lists.  Numbers are modelled as integers with
their canonical decimal form (the claims do not exercise float
formatting). -/
inductive JValue where
  | str (s : List Char)
  | num (n : Int)
  | bool (b : Bool)
  | null
  | obj (fields : List (List Char × JValue))
  | arr (items : List JValue)
deriving Repr

/-- UTF-8 byte count of one character, as stored by a Rust `String`. -/
def utf8Bytes (c : Char) : Nat :=
  if c.val < 0x80 then 1
  else if c.val < 0x800 then 2
  else if c.val < 0x10000 then 3
  else 4

/-- Rust `str::len()`: the UTF-8 byte count of the text. -/
def byteLen (s : List Char) : Nat :=
  (s.map utf8Bytes).sum

/-- Modelled from the spec: `goose::utils::safe_truncate` lives in the
`goose` crate, which is not under `src/` (only its caller
`SessionOutput::print_value` is).  Per the spec's Width-Aware Truncator
contract: if the character count of `text` is ≤ `max_width` the text is
returned unchanged, otherwise a prefix of `max_width` display
characters, never splitting a codepoint, with no ellipsis appended. -/
def safe_truncate (s : List Char) (maxWidth : Nat) : List Char :=
  if s.length ≤ maxWidth then s else s.take maxWidth

/-- Canonical textual form of a number (`n.to_string()`). -/
def numToString (n : Int) : List Char :=
  (toString n).data

/-- Canonical textual form of a boolean (`b.to_string()`). -/
def boolToString (b : Bool) : List Char :=
  (toString b).data

/-- Embeds `SessionOutput::print_value`.  `tw` is the queried terminal
width (`Term::stdout().size_checked()`, `none` when the query fails),
`reserve` the already-printed prefix width, `debug` the per-call flag
and `showFull` the `show_full_tool_output` toggle.  Returns the text
printed for the value (styling dropped), or `none` for the
`unreachable!()` arm (object/array input). -/
def print_value (v : JValue) (debug showFull : Bool) (tw : Option Nat)
    (reserve : Nat) : Option (List Char) :=
  let maxWidth := tw.map (fun w => w - reserve)
  match v with
  | JValue.str s =>
    some (match maxWidth, debug || showFull with
      | some w, false => if byteLen s > w then safe_truncate s w else s
      | _, _ => s)
  | JValue.num n => some (numToString n)
  | JValue.bool b => some (boolToString b)
  | JValue.null => some "null".data
  | JValue.obj _ => none
  | JValue.arr _ => none

/-- Embeds `console::measure_text_width` on the (style-free) label
texts built by `print_params`: the display width with ANSI escapes
stripped, taken as the character count (labels are indentation plus the
key and `": "`). -/
def measure_text_width (s : List Char) : Nat :=
  s.length

/-- Embeds `SessionOutput::print_value_with_prefix` (named `labeled`
here): prints the label, then the value with the label's width
reserved.  Returns the single printed line. -/
def print_value_labeled (lab : List Char) (v : JValue)
    (debug showFull : Bool) (tw : Option Nat) : Option (List Char) :=
  (print_value v debug showFull tw (measure_text_width lab)).map
    (fun t => lab ++ t)

/-- The `INDENT` constant (`"  "`). -/
def INDENT : List Char := "  ".data

/-- Embeds `INDENT.repeat(depth)`. -/
def indentStr (depth : Nat) : List Char :=
  (List.replicate depth INDENT).flatten

/-- The `all_simple` check of `print_params`: every element is a
string, number, bool, or null (`matches!` over the four variants). -/
def allSimple (items : List JValue) : Bool :=
  items.all (fun item =>
    match item with
    | JValue.str _ => true
    | JValue.num _ => true
    | JValue.bool _ => true
    | JValue.null => true
    | _ => false)

/-- The inline stringifier of `print_params` for one array element,
with `none` for the `unreachable!()` arm. -/
def scalarToString : JValue → Option (List Char)
  | JValue.str s => some s
  | JValue.num n => some (numToString n)
  | JValue.bool b => some (boolToString b)
  | JValue.null => some "null".data
  | JValue.obj _ => none
  | JValue.arr _ => none

/-- An `Option`-valued map with `scalarToString` (the `arr.iter().map(...)`
collect; any `unreachable!()` in an element poisons the whole list). -/
def mapScalar : List JValue → Option (List (List Char))
  | [] => some []
  | item :: rest => do
    let s ← scalarToString item
    let t ← mapScalar rest
    some (s :: t)

/-- Embeds `values.join(", ")`. -/
def joinCommaSpace : List (List Char) → List Char
  | [] => []
  | [v] => v
  | v :: rest => v ++ ", ".data ++ joinCommaSpace rest

/-- Minimal JSON escaping for serde_json's `Display` (`{}` formatting of
a `Value`), used by `print_params` for non-object elements of complex
arrays. -/
def jsonEscape : List Char → List Char
  | [] => []
  | c :: rest =>
    (if c = '"' then "\\\"".data
     else if c = '\\' then "\\\\".data
     else if c = '\n' then "\\n".data
     else if c = '\r' then "\\r".data
     else if c = '\t' then "\\t".data
     else [c]) ++ jsonEscape rest

mutual

/-- serde_json `Display` (compact JSON) of a value, used for the
`println!("{}{}- {}", ...)` arm of `print_params`. -/
def jsonDisplay : JValue → List Char
  | JValue.str s => '"' :: (jsonEscape s ++ ['"'])
  | JValue.num n => numToString n
  | JValue.bool b => boolToString b
  | JValue.null => "null".data
  | JValue.obj fields => '{' :: (jsonDisplayFields fields ++ ['}'])
  | JValue.arr items => '[' :: (jsonDisplayItems items ++ [']'])

def jsonDisplayFields : List (List Char × JValue) → List Char
  | [] => []
  | [(k, v)] => '"' :: (jsonEscape k ++ ['"', ':'] ++ jsonDisplay v)
  | (k, v) :: rest =>
    '"' :: (jsonEscape k ++ ['"', ':'] ++ jsonDisplay v ++ [','] ++
      jsonDisplayFields rest)

def jsonDisplayItems : List JValue → List Char
  | [] => []
  | [v] => jsonDisplay v
  | v :: rest => jsonDisplay v ++ [','] ++ jsonDisplayItems rest

end

mutual

/-- Embeds `SessionOutput::print_params`: renders the fields of a JSON
object at the given depth, returning the printed lines, or `none` if an
`unreachable!()` arm would run.  Fields are rendered in stored
(insertion) order. -/
def printParams (fields : List (List Char × JValue)) (depth : Nat)
    (debug showFull : Bool) (tw : Option Nat) :
    Option (List (List Char)) :=
  match fields with
  | [] => some []
  | (key, val) :: rest => do
    let lines ← printEntry key val depth debug showFull tw
    let more ← printParams rest depth debug showFull tw
    some (lines ++ more)

/-- One `(key, val)` arm of the `print_params` loop. -/
def printEntry (key : List Char) (val : JValue) (depth : Nat)
    (debug showFull : Bool) (tw : Option Nat) :
    Option (List (List Char)) :=
  match val with
  | JValue.obj fields => do
    let inner ← printParams fields (depth + 1) debug showFull tw
    some ((indentStr depth ++ key ++ [':']) :: inner)
  | JValue.arr items =>
    if allSimple items then do
      let vs ← mapScalar items
      let line ← print_value_labeled (indentStr depth ++ key ++ ": ".data)
        (JValue.str (joinCommaSpace vs)) debug showFull tw
      some [line]
    else do
      let inner ← printArrItems items depth debug showFull tw
      some ((indentStr depth ++ key ++ [':']) :: inner)
  | _ => do
    let line ← print_value_labeled (indentStr depth ++ key ++ ": ".data)
      val debug showFull tw
    some [line]

/-- The element loop of the complex-array arm of `print_params`. -/
def printArrItems (items : List JValue) (depth : Nat)
    (debug showFull : Bool) (tw : Option Nat) :
    Option (List (List Char)) :=
  match items with
  | [] => some []
  | item :: rest => do
    let head ←
      match item with
      | JValue.obj fields => do
        let inner ← printParams fields (depth + 2) debug showFull tw
        some ((indentStr depth ++ INDENT ++ "- ".data) :: inner)
      | _ =>
        some [indentStr depth ++ INDENT ++ "- ".data ++ jsonDisplay item]
    let t ← printArrItems rest depth debug showFull tw
    some (head ++ t)

end

/-- Total form of the inline stringifier, defined on the scalar
variants (junk `[]` elsewhere). -/
def scalarStrings (items : List JValue) : List (List Char) :=
  items.map (fun item => (scalarToString item).getD [])

/-- Join path components with `'/'` (the `shortened.push('/')` between
components; also `Path::display` of a relative remainder). -/
def joinSlash : List (List Char) → List Char
  | [] => []
  | [c] => c
  | c :: rest => c ++ ['/'] ++ joinSlash rest

/-- Embeds Rust `Path::components()` on the display string, restricted
to the textual subset the code handles: an optional leading root marker
(kept as the component `"/"`, whose `as_os_str` is `/`), empty segments
and interior `"."` segments dropped, a leading `"."` kept for relative
paths, every other segment kept verbatim (`..` passes through as a
normal segment for this purpose). -/
def pathComponents (s : List Char) : List (List Char) :=
  let raw := s.splitOn '/'
  if s.head? = some '/' then
    ['/'] :: raw.filter (fun c => !(c = [] || c = ['.']))
  else
    match raw with
    | [] => []
    | c :: rest =>
      if c = ['.'] then
        ['.'] :: rest.filter (fun c => !(c = [] || c = ['.']))
      else
        raw.filter (fun c => !(c = [] || c = ['.']))

/-- First character of a component, as a string
(`comp.chars().next()`, pushed if present). -/
def firstCharStr (c : List Char) : List Char :=
  c.head?.toList

/-- The component-shortening loop of `shorten_path`: `comps` is the
remaining suffix of the component list, `i` the index of its head and
`n` the total component count; `isAbs` is
`display_path.starts_with('/')`. -/
def buildShort (comps : List (List Char)) (i n : Nat) (isAbs : Bool) :
    List Char :=
  match comps with
  | [] => []
  | c :: rest =>
    (if i = 0 ∧ isAbs = true then []
     else if i + 2 ≥ n then c
     else firstCharStr c) ++
    (if i < n - 1 then ['/'] else []) ++
    buildShort rest (i + 1) n isAbs

/-- Component-wise prefix stripping
(`Path::strip_prefix`, returning the remaining components). -/
def stripComps : List (List Char) → List (List Char) →
    Option (List (List Char))
  | [], rest => some rest
  | _ :: _, [] => none
  | p :: ps, q :: qs => if p = q then stripComps ps qs else none

/-- The home-directory substitution of `shorten_path`: when `HOME` is
set (`home = some h`) and is a path prefix of `path`, the prefix is
replaced by `~/` followed by the remainder
(`format!("~/{}", stripped.display())`). -/
def homeSubst (home : Option (List Char)) (path : List Char) : List Char :=
  match home with
  | none => path
  | some h =>
    match stripComps (pathComponents h) (pathComponents path) with
    | some rest => '~' :: '/' :: joinSlash rest
    | none => path

/-- Embeds `shorten_path` from `output.rs`.  `home` is the value of the
`HOME` environment variable. -/
def shorten_path (home : Option (List Char)) (path : List Char)
    (debug : Bool) : List Char :=
  if debug then path
  else
    let display := homeSubst home path
    if byteLen display > 40 then
      let comps := pathComponents display
      if comps.length > 3 then
        buildShort comps 0 comps.length (display.head? == some '/')
      else display
    else display

/-! Theorems: the claims, their lemmas, and witnesses. -/

theorem isNNAt_cons_succ (a : Char) (t : List Char) (q : Nat) :
    isNNAt (a :: t) (q + 1) = isNNAt t q := by
  simp [isNNAt]

theorem rfindNN_none_iff (l : List Char) :
    rfindNN l = none ↔ containsNN l = false := by
  induction l with
  | nil => simp [rfindNN, containsNN]
  | cons a t ih =>
    cases t with
    | nil => simp [rfindNN, containsNN]
    | cons b t' =>
      rw [rfindNN, containsNN]
      cases h : rfindNN (b :: t') with
      | some p =>
        have hc : containsNN (b :: t') = true := by
          cases hcc : containsNN (b :: t') with
          | false => rw [ih.mpr hcc] at h; exact Option.noConfusion h
          | true => rfl
        simp [hc]
      | none =>
        have hcf : containsNN (b :: t') = false := ih.mp h
        by_cases hab : a = '\n' ∧ b = '\n'
        · simp [hab, hcf]
        · simp [hab, hcf]
          intro h1 h2
          exact absurd ⟨h1, h2⟩ hab

theorem rfindNN_isNNAt (l : List Char) (p : Nat) (h : rfindNN l = some p) :
    isNNAt l p = true := by
  induction l generalizing p with
  | nil => simp [rfindNN] at h
  | cons a t ih =>
    cases t with
    | nil => simp [rfindNN] at h
    | cons b t' =>
      rw [rfindNN] at h
      cases hr : rfindNN (b :: t') with
      | some q =>
        rw [hr] at h
        have hp : p = q + 1 := by
          cases h
          rfl
        subst hp
        rw [isNNAt_cons_succ]
        exact ih q hr
      | none =>
        rw [hr] at h
        by_cases hab : a = '\n' ∧ b = '\n'
        · rw [if_pos hab] at h
          have hp : p = 0 := by
            cases h
            rfl
          subst hp
          simp [isNNAt, hab.1, hab.2]
        · rw [if_neg hab] at h
          exact Option.noConfusion h

theorem isNNAt_le_rfindNN (l : List Char) (q : Nat) (h : isNNAt l q = true) :
    ∃ p, rfindNN l = some p ∧ q ≤ p := by
  induction l generalizing q with
  | nil => simp [isNNAt] at h
  | cons a t ih =>
    cases q with
    | zero =>
      simp only [isNNAt, Bool.and_eq_true, beq_iff_eq] at h
      obtain ⟨ha, hb⟩ := h
      cases t with
      | nil => simp at hb
      | cons b t' =>
        have ha' : a = '\n' := by simpa using ha
        have hb' : b = '\n' := by simpa using hb
        rw [rfindNN]
        cases hr : rfindNN (b :: t') with
        | some p => exact ⟨p + 1, rfl, Nat.zero_le _⟩
        | none => exact ⟨0, by simp [ha', hb'], Nat.le_refl 0⟩
    | succ q' =>
      rw [isNNAt_cons_succ] at h
      cases t with
      | nil => simp [isNNAt] at h
      | cons b t' =>
        obtain ⟨p, hp, hqp⟩ := ih q' h
        rw [rfindNN, hp]
        exact ⟨p + 1, rfl, Nat.succ_le_succ hqp⟩

theorem containsNN_iff_exists (l : List Char) :
    containsNN l = true ↔ ∃ q, isNNAt l q = true := by
  constructor
  · intro h
    induction l with
    | nil => simp [containsNN] at h
    | cons a t ih =>
      cases t with
      | nil => simp [containsNN] at h
      | cons b t' =>
        rw [containsNN] at h
        rcases Bool.or_eq_true_iff.mp h with h1 | h2
        · refine ⟨0, ?_⟩
          simp only [Bool.and_eq_true, decide_eq_true_eq] at h1
          simp [isNNAt, h1.1, h1.2]
        · obtain ⟨q, hq⟩ := ih h2
          exact ⟨q + 1, by rw [isNNAt_cons_succ]; exact hq⟩
  · rintro ⟨q, hq⟩
    obtain ⟨p, hp, _⟩ := isNNAt_le_rfindNN l q hq
    by_contra hc
    have hn : rfindNN l = none := by
      rw [rfindNN_none_iff]
      simpa using hc
    rw [hn] at hp
    exact Option.noConfusion hp

theorem rfindNN_isSome_iff (l : List Char) :
    (rfindNN l).isSome = true ↔ containsNN l = true := by
  constructor
  · intro h
    obtain ⟨p, hp⟩ := Option.isSome_iff_exists.mp h
    exact (containsNN_iff_exists l).mpr ⟨p, rfindNN_isNNAt l p hp⟩
  · intro h
    obtain ⟨q, hq⟩ := (containsNN_iff_exists l).mp h
    obtain ⟨p, hp, _⟩ := isNNAt_le_rfindNN l q hq
    simp [hp]

/-- Claim C1: `MarkdownBuffer::push` appends the fragment and returns
`Some` exactly when the resulting buffer contains a double newline; the
returned value is the buffer up to and including the LAST double-newline
occurrence (`rfindNN` marks an occurrence and no later position does),
and the retained buffer is the remaining suffix.  In particular, for text
`a` with no double newline inside, `push a` on an empty buffer returns
nothing and retains `a`, and a subsequent `push c` returns a value iff
`a ++ c` contains a double newline, that value being the prefix of
`a ++ c` through the last double newline. -/
theorem markdown_push_spec (buf chunk : List Char) :
    (((pushB buf chunk).1.isSome) ↔ containsNN (buf ++ chunk) = true) ∧
    (∀ p, rfindNN (buf ++ chunk) = some p →
      isNNAt (buf ++ chunk) p = true ∧
      (∀ q, isNNAt (buf ++ chunk) q = true → q ≤ p) ∧
      pushB buf chunk =
        (some ((buf ++ chunk).take (p + 2)), (buf ++ chunk).drop (p + 2))) ∧
    (∀ a c : List Char, containsNN a = false →
      pushB [] a = (none, a) ∧
      (((pushB a c).1.isSome) ↔ containsNN (a ++ c) = true) ∧
      (∀ p, rfindNN (a ++ c) = some p →
        (pushB a c).1 = some ((a ++ c).take (p + 2)))) := by
  refine ⟨?_, ?_, ?_⟩
  · rw [← rfindNN_isSome_iff]
    unfold pushB
    cases h : rfindNN (buf ++ chunk) <;> simp [h]
  · intro p hp
    refine ⟨rfindNN_isNNAt _ p hp, ?_, ?_⟩
    · intro q hq
      obtain ⟨p', hp', hqp⟩ := isNNAt_le_rfindNN _ q hq
      rw [hp] at hp'
      cases hp'
      exact hqp
    · unfold pushB
      simp [hp]
  · intro a c ha
    refine ⟨?_, ?_, ?_⟩
    · unfold pushB
      have : rfindNN ([] ++ a) = none := by
        rw [rfindNN_none_iff]
        simpa using ha
      simp at this
      simp [this]
    · rw [← rfindNN_isSome_iff]
      unfold pushB
      cases h : rfindNN (a ++ c) <;> simp [h]
    · intro p hp
      unfold pushB
      simp [hp]

/-- Witness for `markdown_push_spec` at concrete inputs. -/
theorem markdown_push_spec_witness :
    pushB "x\n".data "\ny".data = (some "x\n\n".data, "y".data) ∧
    pushB [] "x\n".data = (none, "x\n".data) := by
  have h := markdown_push_spec "x\n".data "\ny".data
  have h2 := (h.2.2 "x\n".data "\ny".data (by decide)).1
  have h3 := h.2.1 1 (by decide)
  refine ⟨?_, h2⟩
  have := h3.2.2
  simpa using this

theorem stepB_conserves (buf : List Char) (op : BufOp) :
    (stepB buf op).1.flatten ++ (stepB buf op).2 =
      buf ++ (pushedOf [op]).flatten := by
  cases op with
  | push frag =>
    show (stepB buf (BufOp.push frag)).1.flatten ++ _ = _
    unfold stepB pushB
    cases h : rfindNN (buf ++ frag) with
    | some p => simp [h, pushedOf]
    | none => simp [h, pushedOf]
  | flush => simp [stepB, flushB, pushedOf]

theorem runB_conserves (ops : List BufOp) :
    ∀ buf : List Char,
      (runB buf ops).1.flatten ++ (runB buf ops).2 =
        buf ++ (pushedOf ops).flatten := by
  induction ops with
  | nil => intro buf; simp [runB, pushedOf]
  | cons op ops ih =>
    intro buf
    have hstep := stepB_conserves buf op
    cases op with
    | push frag =>
      rw [runB]
      simp only [List.flatten_append]
      have := ih (stepB buf (BufOp.push frag)).2
      rw [List.append_assoc, this]
      rw [← List.append_assoc]
      have hs : (stepB buf (BufOp.push frag)).1.flatten ++
          (stepB buf (BufOp.push frag)).2 = buf ++ [frag].flatten := by
        simpa [pushedOf] using hstep
      simp only [pushedOf, List.flatten_cons]
      rw [hs]
      simp
    | flush =>
      rw [runB]
      simp only [List.flatten_append]
      have := ih (stepB buf BufOp.flush).2
      rw [List.append_assoc, this]
      rw [← List.append_assoc]
      have hs : (stepB buf BufOp.flush).1.flatten ++
          (stepB buf BufOp.flush).2 = buf := by
        simpa [pushedOf] using hstep
      simp only [pushedOf]
      rw [hs]

/-- Claim C2: Conservation: starting from a new (empty) buffer, after any
sequence of `push`/`flush` calls the concatenation of every emitted text
with the current buffer contents equals the concatenation of all pushed
fragments — no text lost, duplicated, or reordered. -/
theorem markdown_buffer_conservation (ops : List BufOp) :
    (runB [] ops).1.flatten ++ (runB [] ops).2 = (pushedOf ops).flatten := by
  simpa using runB_conserves ops []

/-- Claim C3: `flush` returns exactly the retained text and empties the
buffer; `flush` on an empty buffer returns empty text; hence a second
`flush` in a row returns empty text. -/
theorem markdown_flush_spec (buf : List Char) :
    flushB buf = (buf, []) ∧
    flushB ([] : List Char) = ([], []) ∧
    flushB (flushB buf).2 = ([], []) :=
  ⟨rfl, rfl, rfl⟩

/-- Claim C7: The spacing transition, read with its rules in priority
order: nothing when `prev = Empty`; one blank line when `prev = Header`
or `next = Header`; nothing for `(ToolCall, ToolResponse)`; one blank
line otherwise.  The stored state unconditionally becomes `next`. -/
theorem handle_spacing_spec (prev next : ContentType) :
    handle_spacing prev next =
      ((if prev = ContentType.Empty then false
        else if prev = ContentType.Header ∨ next = ContentType.Header then true
        else if prev = ContentType.ToolCall ∧ next = ContentType.ToolResponse
          then false
        else true),
       next) := by
  cases prev <;> cases next <;> rfl

/-- Claim C8 counterexample: The claim "`spacing(Y, Header)` emits a
separator for every `Y`, including `Empty`" fails at `Y = Empty`: the
`prev = Empty` arm matches first and emits nothing. -/
theorem spacing_empty_header_no_separator :
    (handle_spacing ContentType.Empty ContentType.Header).1 = false := by
  rfl

/-- Claim C8 amended: `spacing(Header, Y)` emits one blank separator
line for every `Y`; `spacing(Y, Header)` emits one for every
`Y ≠ Empty`. -/
theorem spacing_header_amended (Y : ContentType) :
    (handle_spacing ContentType.Header Y).1 = true ∧
    (Y ≠ ContentType.Empty →
      (handle_spacing Y ContentType.Header).1 = true) := by
  cases Y <;> simp [handle_spacing]

/-- Witness for `spacing_header_amended` at `Y = Text`. -/
theorem spacing_header_amended_witness :
    (handle_spacing ContentType.Header ContentType.Text).1 = true ∧
    (handle_spacing ContentType.Text ContentType.Header).1 = true :=
  ⟨(spacing_header_amended ContentType.Text).1,
   (spacing_header_amended ContentType.Text).2 (by decide)⟩

theorem one_le_utf8Bytes (c : Char) : 1 ≤ utf8Bytes c := by
  unfold utf8Bytes
  split
  · exact Nat.le_refl 1
  · split
    · omega
    · split <;> omega

theorem length_le_byteLen (s : List Char) : s.length ≤ byteLen s := by
  induction s with
  | nil => simp [byteLen]
  | cons c t ih =>
    have h := one_le_utf8Bytes c
    simp only [byteLen, List.map_cons, List.sum_cons, List.length_cons]
    simp only [byteLen] at ih
    omega

/-- Claim C4: When a string value is printed with a known terminal width
(and truncation not suppressed), the observable decision is by character
count: a string of character count within the remaining budget is
printed unchanged (even when its UTF-8 byte count exceeds the budget,
the byte-length test only routes it through `safe_truncate`, which
returns it whole), and a longer string is printed as its prefix of
exactly the budget many characters, never splitting a codepoint and with
no ellipsis appended. -/
theorem print_value_string_by_chars (s : List Char) (w r : Nat) :
    (s.length ≤ w - r →
      print_value (JValue.str s) false false (some w) r = some s) ∧
    (s.length > w - r →
      print_value (JValue.str s) false false (some w) r =
        some (s.take (w - r)) ∧
      (s.take (w - r)).length = w - r) := by
  constructor
  · intro hle
    unfold print_value
    by_cases hbl : byteLen s > w - r
    · simp only [Option.map, hbl]
      simp [safe_truncate, hle, hbl]
    · simp [Option.map, hbl]
  · intro hgt
    have hbl : byteLen s > w - r :=
      Nat.lt_of_lt_of_le hgt (length_le_byteLen s)
    constructor
    · unfold print_value
      simp only [Option.map]
      simp [hbl, safe_truncate, Nat.not_le.mpr hgt]
    · simp [List.length_take]
      omega

/-- Witness for `print_value_string_by_chars` at `"hello"` with budgets
10 and 3. -/
theorem print_value_string_by_chars_witness :
    print_value (JValue.str "hello".data) false false (some 10) 0 =
      some "hello".data ∧
    print_value (JValue.str "hello".data) false false (some 3) 0 =
      some "hel".data := by
  constructor
  · exact (print_value_string_by_chars "hello".data 10 0).1 (by decide)
  · exact (((print_value_string_by_chars "hello".data 3 0).2
      (by decide)).1).trans (by decide)

/-- Claim C5 counterexample: A number value is NOT passed through the
truncator even when the terminal width is known and the mode is neither
Full nor Debug: with width 5, `123456789` is printed in full, which
differs from the truncated form the claim requires. -/
theorem print_value_number_not_truncated :
    print_value (JValue.num 123456789) false false (some 5) 0 =
      some "123456789".data ∧
    some "123456789".data ≠
      some (safe_truncate (numToString 123456789) 5) := by
  constructor
  · rfl
  · decide

/-- Claim C5 amended: Only string scalar values are routed through the
truncator, and exactly when the terminal width is known and the mode is
neither Full nor Debug (the trigger test uses the byte length); number,
boolean, and null scalars are always printed in full, and a string is
printed in full whenever the width is unknown or the mode is Full or
Debug. -/
theorem print_value_scalar_truncation (s : List Char) (n : Int) (b : Bool)
    (debug showFull : Bool) (tw : Option Nat) (r : Nat) :
    print_value (JValue.num n) debug showFull tw r = some (numToString n) ∧
    print_value (JValue.bool b) debug showFull tw r =
      some (boolToString b) ∧
    print_value JValue.null debug showFull tw r = some "null".data ∧
    ((debug || showFull) = true →
      print_value (JValue.str s) debug showFull tw r = some s) ∧
    (tw = none → print_value (JValue.str s) debug showFull tw r = some s) ∧
    (∀ w, tw = some w → (debug || showFull) = false →
      print_value (JValue.str s) debug showFull tw r =
        some (if byteLen s > w - r then safe_truncate s (w - r) else s)) := by
  refine ⟨rfl, rfl, rfl, ?_, ?_, ?_⟩
  · intro h
    unfold print_value
    rw [h]
    cases tw <;> rfl
  · intro h
    subst h
    rfl
  · intro w hw hm
    subst hw
    unfold print_value
    rw [hm]
    rfl

theorem mapScalar_of_allSimple (items : List JValue)
    (h : allSimple items = true) :
    mapScalar items = some (scalarStrings items) := by
  induction items with
  | nil => rfl
  | cons item rest ih =>
    simp only [allSimple, List.all_cons, Bool.and_eq_true] at h
    have hrest : mapScalar rest = some (scalarStrings rest) := by
      apply ih
      simpa [allSimple] using h.2
    cases item with
    | str s => simp [mapScalar, scalarToString, hrest, scalarStrings]
    | num n => simp [mapScalar, scalarToString, hrest, scalarStrings]
    | bool b => simp [mapScalar, scalarToString, hrest, scalarStrings]
    | null => simp [mapScalar, scalarToString, hrest, scalarStrings]
    | obj fields => simp at h
    | arr xs => simp at h

theorem printParams_append (fields₁ fields₂ : List (List Char × JValue))
    (depth : Nat) (debug showFull : Bool) (tw : Option Nat) :
    printParams (fields₁ ++ fields₂) depth debug showFull tw =
      match printParams fields₁ depth debug showFull tw,
          printParams fields₂ depth debug showFull tw with
      | some l₁, some l₂ => some (l₁ ++ l₂)
      | _, _ => none := by
  induction fields₁ with
  | nil =>
    simp only [List.nil_append]
    rw [printParams]
    cases printParams fields₂ depth debug showFull tw <;> rfl
  | cons kv rest ih =>
    obtain ⟨key, val⟩ := kv
    simp only [List.cons_append]
    rw [printParams, printParams]
    cases he : printEntry key val depth debug showFull tw with
    | none => rfl
    | some lines =>
      rw [ih]
      cases h1 : printParams rest depth debug showFull tw with
      | none =>
        cases h2 : printParams fields₂ depth debug showFull tw <;>
          simp [Option.bind]
      | some l₁ =>
        cases h2 : printParams fields₂ depth debug showFull tw with
        | none => simp [Option.bind]
        | some l₂ => simp [Option.bind]

/-- Claim C6: Objects are rendered field by field in insertion order
(rendering distributes over concatenation of field lists, in order); an
array all of whose elements are scalars is rendered inline as one
`key: v1, v2, v3` line, the comma-joined unit passed through
`print_value` with the `indent ++ key ++ ": "` label width reserved; and
the object `{"path": "/a/b/c", "count": 3, "tags": ["x","y"]}` renders
`path`, `count`, and `tags` each on its own indented line in insertion
order, `tags` as the inline comma-joined list. -/
theorem print_params_layout :
    (∀ (fields₁ fields₂ : List (List Char × JValue)) (depth : Nat)
        (debug showFull : Bool) (tw : Option Nat) (l₁ l₂ : List (List Char)),
      printParams fields₁ depth debug showFull tw = some l₁ →
      printParams fields₂ depth debug showFull tw = some l₂ →
      printParams (fields₁ ++ fields₂) depth debug showFull tw =
        some (l₁ ++ l₂)) ∧
    (∀ (key : List Char) (items : List JValue) (depth : Nat)
        (debug showFull : Bool) (tw : Option Nat),
      allSimple items = true →
      printEntry key (JValue.arr items) depth debug showFull tw =
        (print_value_labeled (indentStr depth ++ key ++ ": ".data)
          (JValue.str (joinCommaSpace (scalarStrings items)))
          debug showFull tw).map (fun line => [line])) ∧
    printParams
      [("path".data, JValue.str "/a/b/c".data),
       ("count".data, JValue.num 3),
       ("tags".data, JValue.arr [JValue.str "x".data, JValue.str "y".data])]
      1 false false none =
      some ["  path: /a/b/c".data, "  count: 3".data, "  tags: x, y".data] := by
  refine ⟨?_, ?_, ?_⟩
  · intro fields₁ fields₂ depth debug showFull tw l₁ l₂ h1 h2
    rw [printParams_append, h1, h2]
  · intro key items depth debug showFull tw h
    rw [printEntry]
    rw [if_pos h, mapScalar_of_allSimple items h]
    have hb : ∀ (x : Option (List Char)),
        Option.bind x (fun line => some [line]) =
          x.map (fun line => [line]) := by
      intro x
      cases x <;> rfl
    show Option.bind (print_value_labeled (indentStr depth ++ key ++ ": ".data)
        (JValue.str (joinCommaSpace (scalarStrings items))) debug showFull tw)
        (fun line => some [line]) =
      (print_value_labeled (indentStr depth ++ key ++ ": ".data)
        (JValue.str (joinCommaSpace (scalarStrings items)))
        debug showFull tw).map (fun line => [line])
    exact hb _
  · decide

/-- Witness for `print_params_layout`: the sequencing part applied to
the two halves of the example object, and the inline-array part applied
to `tags`. -/
theorem print_params_layout_witness :
    printParams
      ([("path".data, JValue.str "/a/b/c".data)] ++
       [("count".data, JValue.num 3)]) 1 false false none =
      some ["  path: /a/b/c".data, "  count: 3".data] ∧
    printEntry "tags".data
      (JValue.arr [JValue.str "x".data, JValue.str "y".data])
      1 false false none =
      (print_value_labeled (indentStr 1 ++ "tags".data ++ ": ".data)
        (JValue.str (joinCommaSpace
          (scalarStrings [JValue.str "x".data, JValue.str "y".data])))
        false false none).map (fun line => [line]) := by
  constructor
  · exact (print_params_layout.1 [("path".data, JValue.str "/a/b/c".data)]
      [("count".data, JValue.num 3)] 1 false false none
      ["  path: /a/b/c".data] ["  count: 3".data]
      (by decide) (by decide))
  · exact print_params_layout.2.1 "tags".data
      [JValue.str "x".data, JValue.str "y".data] 1 false false none
      (by decide)

theorem scalarToString_isSome_of_simple (item : JValue)
    (h : (match item with
      | JValue.str _ => true
      | JValue.num _ => true
      | JValue.bool _ => true
      | JValue.null => true
      | _ => false) = true) :
    (scalarToString item).isSome = true := by
  cases item <;> simp [scalarToString] at h ⊢

theorem mapScalar_isSome_of_allSimple (items : List JValue)
    (h : allSimple items = true) :
    (mapScalar items).isSome = true := by
  rw [mapScalar_of_allSimple items h]
  rfl

mutual

theorem printParams_isSome (fields : List (List Char × JValue))
    (depth : Nat) (debug showFull : Bool) (tw : Option Nat) :
    (printParams fields depth debug showFull tw).isSome = true := by
  match fields with
  | [] => rw [printParams]; rfl
  | (key, val) :: rest =>
    rw [printParams]
    have h1 := printEntry_isSome key val depth debug showFull tw
    have h2 := printParams_isSome rest depth debug showFull tw
    obtain ⟨l, hl⟩ := Option.isSome_iff_exists.mp h1
    obtain ⟨m, hm⟩ := Option.isSome_iff_exists.mp h2
    rw [hl, hm]
    rfl

theorem printEntry_isSome (key : List Char) (val : JValue) (depth : Nat)
    (debug showFull : Bool) (tw : Option Nat) :
    (printEntry key val depth debug showFull tw).isSome = true := by
  match val with
  | JValue.obj fields =>
    rw [printEntry]
    have h1 := printParams_isSome fields (depth + 1) debug showFull tw
    obtain ⟨l, hl⟩ := Option.isSome_iff_exists.mp h1
    rw [hl]
    rfl
  | JValue.arr items =>
    rw [printEntry]
    by_cases hs : allSimple items = true
    · rw [if_pos hs, mapScalar_of_allSimple items hs]
      show (Option.bind (print_value_labeled
        (indentStr depth ++ key ++ ": ".data)
        (JValue.str (joinCommaSpace (scalarStrings items)))
        debug showFull tw) (fun line => some [line])).isSome = true
      cases hp : print_value_labeled (indentStr depth ++ key ++ ": ".data)
          (JValue.str (joinCommaSpace (scalarStrings items)))
          debug showFull tw with
      | none =>
        exact absurd hp (by simp [print_value_labeled, print_value])
      | some line => rfl
    · rw [if_neg hs]
      have h1 := printArrItems_isSome items depth debug showFull tw
      obtain ⟨l, hl⟩ := Option.isSome_iff_exists.mp h1
      rw [hl]
      rfl
  | JValue.str s => rfl
  | JValue.num n => rfl
  | JValue.bool b => rfl
  | JValue.null => rfl

theorem printArrItems_isSome (items : List JValue) (depth : Nat)
    (debug showFull : Bool) (tw : Option Nat) :
    (printArrItems items depth debug showFull tw).isSome = true := by
  match items with
  | [] => rw [printArrItems]; rfl
  | item :: rest =>
    have h2 := printArrItems_isSome rest depth debug showFull tw
    obtain ⟨m, hm⟩ := Option.isSome_iff_exists.mp h2
    match item with
    | JValue.obj fields =>
      have h1 := printParams_isSome fields (depth + 2) debug showFull tw
      obtain ⟨l, hl⟩ := Option.isSome_iff_exists.mp h1
      rw [printArrItems, hl, hm]
      rfl
    | JValue.str s =>
      rw [printArrItems, hm]
      · rfl
      · intro fields h
        exact JValue.noConfusion h
    | JValue.num n =>
      rw [printArrItems, hm]
      · rfl
      · intro fields h
        exact JValue.noConfusion h
    | JValue.bool b =>
      rw [printArrItems, hm]
      · rfl
      · intro fields h
        exact JValue.noConfusion h
    | JValue.null =>
      rw [printArrItems, hm]
      · rfl
      · intro fields h
        exact JValue.noConfusion h
    | JValue.arr xs =>
      rw [printArrItems, hm]
      · rfl
      · intro fields h
        exact JValue.noConfusion h

end

/-- Claim C10: The `unreachable!()` arms of `print_value` and of the
inline array stringifier never execute: rendering any JSON object via
`print_params` always produces output (`print_value` only ever receives
the four scalar variants, and the inline stringifier only runs after
`all_simple` has checked every element). -/
theorem print_params_never_panics (fields : List (List Char × JValue))
    (depth : Nat) (debug showFull : Bool) (tw : Option Nat) :
    (printParams fields depth debug showFull tw).isSome = true :=
  printParams_isSome fields depth debug showFull tw

theorem joinSlash_cons_of_ne_nil (x : List Char) (ys : List (List Char))
    (h : ys ≠ []) : joinSlash (x :: ys) = x ++ ['/'] ++ joinSlash ys := by
  cases ys with
  | nil => exact absurd rfl h
  | cons y ys' => rfl

theorem buildShort_go (isAbs : Bool) (cs : List (List Char)) :
    ∀ i n : Nat, i + cs.length = n → (isAbs = true → 1 ≤ i) →
      2 ≤ cs.length →
      buildShort cs i n isAbs =
        joinSlash ((cs.take (cs.length - 2)).map firstCharStr ++
          cs.drop (cs.length - 2)) := by
  induction cs with
  | nil => intro i n _ _ hlen; simp at hlen
  | cons c cs' ih =>
    intro i n hn habs hlen
    have hnotroot : ¬(i = 0 ∧ isAbs = true) := by
      rintro ⟨h0, ha⟩
      have := habs ha
      omega
    cases cs' with
    | nil => simp at hlen
    | cons c2 rest =>
      cases rest with
      | nil =>
        rw [buildShort, if_neg hnotroot,
          if_pos (by simp at hn ⊢; omega : i + 2 ≥ n),
          if_pos (by simp at hn ⊢; omega : i < n - 1)]
        rw [buildShort, if_neg (by rintro ⟨h0, _⟩; omega),
          if_pos (by simp at hn ⊢; omega : i + 1 + 2 ≥ n),
          if_neg (by simp at hn ⊢; omega : ¬(i + 1 < n - 1))]
        rw [buildShort]
        simp [joinSlash]
      | cons c3 rest' =>
        have hlen' : 2 ≤ (c2 :: c3 :: rest').length := by
          simp
        have hlt : ¬(i + 2 ≥ n) := by
          simp at hn
          omega
        rw [buildShort, if_neg hnotroot, if_neg hlt,
          if_pos (by simp at hn ⊢; omega : i < n - 1)]
        rw [ih (i + 1) n (by simp at hn ⊢; omega) (fun _ => by omega) hlen']
        have htake : (c :: c2 :: c3 :: rest').length - 2 =
            ((c2 :: c3 :: rest').length - 2) + 1 := by
          simp
        rw [htake, List.take_succ_cons, List.drop_succ_cons, List.map_cons]
        rw [List.cons_append]
        rw [joinSlash_cons_of_ne_nil]
        intro hc
        have h1 := congrArg List.length hc
        simp [List.length_drop] at h1
        omega

/-- Claim C9: `shorten_path` on a display form (after home-prefix
substitution) longer than 40 characters: with at most 3 path components
the string is returned unshortened; with more than 3 components the
last two components are kept verbatim, every interior component is
collapsed to its first character, and the components are rejoined with
`/`, preserving order and the leading root marker.  The 8-component
example `"/vvvvvvvvvvvvvvvvvvvvvvvvvvvvvvvvvvvvvvvv/long/path/with/many/components/file.txt"`
yields `"/v/l/p/w/m/components/file.txt"`. -/
theorem shorten_path_spec (home : Option (List Char)) (path : List Char) :
    ((homeSubst home path).length > 40 →
      ((pathComponents (homeSubst home path)).length ≤ 3 →
        shorten_path home path false = homeSubst home path) ∧
      ((homeSubst home path).head? = some '/' →
        3 < (pathComponents (homeSubst home path)).length →
        shorten_path home path false =
          '/' :: joinSlash
            ((((pathComponents (homeSubst home path)).tail).take
              ((pathComponents (homeSubst home path)).tail.length - 2)).map
                firstCharStr ++
              ((pathComponents (homeSubst home path)).tail).drop
                ((pathComponents (homeSubst home path)).tail.length - 2))) ∧
      ((homeSubst home path).head? ≠ some '/' →
        3 < (pathComponents (homeSubst home path)).length →
        shorten_path home path false =
          joinSlash
            (((pathComponents (homeSubst home path)).take
              ((pathComponents (homeSubst home path)).length - 2)).map
                firstCharStr ++
              (pathComponents (homeSubst home path)).drop
                ((pathComponents (homeSubst home path)).length - 2)))) ∧
    shorten_path none
      "/vvvvvvvvvvvvvvvvvvvvvvvvvvvvvvvvvvvvvvvv/long/path/with/many/components/file.txt".data
      false = "/v/l/p/w/m/components/file.txt".data := by
  constructor
  · intro hlong
    have hbyte : byteLen (homeSubst home path) > 40 :=
      Nat.lt_of_lt_of_le hlong (length_le_byteLen _)
    refine ⟨?_, ?_, ?_⟩
    · intro hle
      unfold shorten_path
      rw [if_neg (by simp)]
      rw [if_pos hbyte, if_neg (by omega)]
    · intro habs hgt
      unfold shorten_path
      rw [if_neg (by simp)]
      rw [if_pos hbyte, if_pos hgt]
      have hcomps : pathComponents (homeSubst home path) =
          ['/'] :: (pathComponents (homeSubst home path)).tail := by
        unfold pathComponents
        rw [if_pos habs]
        rfl
      have hflag : ((homeSubst home path).head? == some '/') = true := by
        simp [habs]
      rw [hflag]
      rw [hcomps]
      set tl := (pathComponents (homeSubst home path)).tail with htl
      have hn : (['/'] :: tl).length = tl.length + 1 := by simp
      have htllen : 3 ≤ tl.length := by
        rw [hcomps] at hgt
        simp at hgt
        omega
      rw [buildShort, if_pos ⟨rfl, rfl⟩,
        if_pos (by simp; omega : 0 < (['/'] :: tl).length - 1)]
      rw [buildShort_go true tl 1 (['/'] :: tl).length (by simp; omega)
        (fun _ => Nat.le_refl 1) (by omega)]
      rfl
    · intro hrel hgt
      unfold shorten_path
      rw [if_neg (by simp)]
      rw [if_pos hbyte, if_pos hgt]
      have hflag : ((homeSubst home path).head? == some '/') = false := by
        simpa using hrel
      rw [hflag]
      exact buildShort_go false (pathComponents (homeSubst home path)) 0
        (pathComponents (homeSubst home path)).length (Nat.zero_add _)
        (fun h => Bool.noConfusion h) (by omega)
  · decide

/-- Witness for `shorten_path_spec`: the three branches at concrete
paths — a long 2-component absolute path (unshortened), the 8-component
absolute example (collapsed, with root marker), and a long 5-component
relative path (collapsed, no root marker). -/
theorem shorten_path_spec_witness :
    shorten_path none
      "/aaaaaaaaaaaaaaaaaaaaaaaaaaaaaaaaaaaaaaaaaaaaaaaa".data false =
      "/aaaaaaaaaaaaaaaaaaaaaaaaaaaaaaaaaaaaaaaaaaaaaaaa".data ∧
    shorten_path none
      "/vvvvvvvvvvvvvvvvvvvvvvvvvvvvvvvvvvvvvvvv/long/path/with/many/components/file.txt".data
      false = "/v/l/p/w/m/components/file.txt".data ∧
    shorten_path none
      "aaaaaaaaaa/bbbbbbbbbb/cccccccccc/dddddddddd/e".data false =
      "a/b/c/dddddddddd/e".data := by
  refine ⟨?_, ?_, ?_⟩
  · exact ((shorten_path_spec none
      "/aaaaaaaaaaaaaaaaaaaaaaaaaaaaaaaaaaaaaaaaaaaaaaaa".data).1
      (by decide)).1 (by decide)
  · exact (shorten_path_spec none
      "/vvvvvvvvvvvvvvvvvvvvvvvvvvvvvvvvvvvvvvvv/long/path/with/many/components/file.txt".data).2
  · exact (((shorten_path_spec none
      "aaaaaaaaaa/bbbbbbbbbb/cccccccccc/dddddddddd/e".data).1
      (by decide)).2.2 (by decide) (by decide)).trans (by decide)
/-- Witness for `print_value_scalar_truncation`: a number printed in
full, a string under Debug mode, a string with unknown width, and a
string with known width in normal mode. -/
theorem print_value_scalar_truncation_witness :
    print_value (JValue.num 7) true false (some 10) 0 =
      some (numToString 7) ∧
    print_value (JValue.str "hi".data) true false (some 10) 0 =
      some "hi".data ∧
    print_value (JValue.str "hi".data) false false none 0 =
      some "hi".data ∧
    print_value (JValue.str "abcdef".data) false false (some 4) 0 =
      some (if byteLen "abcdef".data > 4 - 0 then
        safe_truncate "abcdef".data (4 - 0) else "abcdef".data) := by
  refine ⟨?_, ?_, ?_, ?_⟩
  · exact (print_value_scalar_truncation "hi".data 7 true true false
      (some 10) 0).1
  · exact (print_value_scalar_truncation "hi".data 7 true true false
      (some 10) 0).2.2.2.1 rfl
  · exact (print_value_scalar_truncation "hi".data 7 true false false
      none 0).2.2.2.2.1 rfl
  · exact (print_value_scalar_truncation "abcdef".data 7 true false false
      (some 4) 0).2.2.2.2.2 4 rfl rfl
